import Mathlib

/-!
Verification of the BFS traversal engine of the BFS-Traversal repository.

The definitions below are a shallow embedding of the state and handlers of
`src/App.tsx`: the React component state becomes the record `AppState`, and
each handler (`addNode`, `handleNodeClick`, `getNeighbors`, `performBFSStep`,
`resetVisualization`, `generateExplanation`) becomes a pure function on that
record.  The asynchronous narration call is modelled by passing the outcome of
the external request (`Except`) as an explicit argument.
-/

namespace BFSTraversal

/-- A canvas node: `interface Node { id: string; x: number; y: number }`. -/
structure Node where
  id : String
  x : Int
  y : Int
deriving Repr, DecidableEq

/-- An undirected edge: `interface Edge { from: string; to: string }`.
`from` is a Lean keyword, hence the field name `from_`. -/
structure Edge where
  from_ : String
  to_ : String
deriving Repr, DecidableEq

/-- The component state: one field per `useState` hook of `App`. -/
structure AppState where
  nodes : List Node
  edges : List Edge
  selectedNode : Option String
  visitedNodes : List String
  currentQueue : List String
  isRunning : Bool
  startNode : Option String
  explanation : String
  isDarkMode : Bool
  isMuted : Bool
deriving Repr, DecidableEq

/-- The initial values of the `useState` hooks. -/
def initialState : AppState :=
  { nodes := [], edges := [], selectedNode := none, visitedNodes := [],
    currentQueue := [], isRunning := false, startNode := none,
    explanation := "", isDarkMode := false, isMuted := true }

/-- `getNeighbors`: filter the edges touching `nodeId` and map each to its
other endpoint (`edge.from === nodeId ? edge.to_ : edge.from`). -/
def getNeighbors (edges : List Edge) (nodeId : String) : List String :=
  (edges.filter fun edge => edge.from_ == nodeId || edge.to_ == nodeId).map
    fun edge => if edge.from_ == nodeId then edge.to_ else edge.from_

/-- The local `unvisitedNeighbors` computation of `performBFSStep`:
`neighbors.filter(neighbor => !visitedNodes.includes(neighbor))`. -/
def unvisitedNeighbors (edges : List Edge) (visited : List String)
    (current : String) : List String :=
  (getNeighbors edges current).filter fun neighbor => !(visited.contains neighbor)

/-- `performBFSStep`: an early return when the queue is empty or no start node
is set; otherwise pop the head of the queue, append its unvisited neighbors to
the queue tail and to the visited list. -/
def performBFSStep (s : AppState) : AppState :=
  match s.currentQueue, s.startNode with
  | [], _ => s
  | _ :: _, none => s
  | currentNode :: newQueue, some _ =>
    let fresh := unvisitedNeighbors s.edges s.visitedNodes currentNode
    { s with currentQueue := newQueue ++ fresh,
             visitedNodes := s.visitedNodes ++ fresh }

/-- `handleNodeClick`: in editing mode (not running) it performs pending-edge
selection and connection; while running with no start node it seeds the
traversal; otherwise it does nothing. -/
def handleNodeClick (s : AppState) (nodeId : String) : AppState :=
  if !s.isRunning then
    match s.selectedNode with
    | none => { s with selectedNode := some nodeId }
    | some sel =>
      if sel ≠ nodeId then
        { s with edges := s.edges ++ [{ from_ := sel, to_ := nodeId }],
                 selectedNode := none }
      else
        { s with selectedNode := none }
  else if s.startNode = none then
    { s with startNode := some nodeId, visitedNodes := [nodeId],
             currentQueue := [nodeId] }
  else
    s

/-- `resetVisualization`: clears visited, queue, running flag, start node and
explanation text. -/
def resetVisualization (s : AppState) : AppState :=
  { s with visitedNodes := [], currentQueue := [], isRunning := false,
           startNode := none, explanation := "" }

/-- `addNode`: appends a node with identifier `${nodes.length + 1}` at the
click coordinates. -/
def addNode (s : AppState) (x y : Int) : AppState :=
  { s with nodes := s.nodes ++ [{ id := toString (s.nodes.length + 1), x := x, y := y }] }

/-- The fixed fallback string of the `catch` branch of `generateExplanation`. -/
def narrationFallback : String := "Unable to generate explanation at this time."

/-- `generateExplanation`: returns early when nothing is visited; otherwise the
external call either succeeds with some text or throws, in which case the
fallback message is shown.  The outcome of the external call is passed in as an
`Except` value. -/
def generateExplanation (s : AppState) (result : Except String String) : AppState :=
  if s.visitedNodes.length = 0 then s
  else
    match result with
    | Except.ok text => { s with explanation := text }
    | Except.error _ => { s with explanation := narrationFallback }

/-- A traversal-phase operation: choosing the start node (a node click while
running, routed through `handleNodeClick`) or one BFS step. -/
inductive BfsOp where
  | setStart (id : String) : BfsOp
  | step : BfsOp
deriving Repr, DecidableEq

/-- Apply one traversal operation.  `setStart` is the node click received while
the run flag is on (the Start button sets `isRunning` before any such click). -/
def applyBfsOp (s : AppState) : BfsOp → AppState
  | BfsOp.setStart id => handleNodeClick { s with isRunning := true } id
  | BfsOp.step => performBFSStep s

/-- Run a sequence of traversal operations. -/
def runBfsOps (s : AppState) (ops : List BfsOp) : AppState :=
  ops.foldl applyBfsOp s

/-- The identifiers of the nodes of the state. -/
def nodeIds (s : AppState) : List String := s.nodes.map Node.id

/-- Two edges join the same unordered pair of endpoints. -/
def sameUndirectedEdge (e1 e2 : Edge) : Prop :=
  (e1.from_ = e2.from_ ∧ e1.to_ = e2.to_) ∨ (e1.from_ = e2.to_ ∧ e1.to_ = e2.from_)

instance (e1 e2 : Edge) : Decidable (sameUndirectedEdge e1 e2) := by
  unfold sameUndirectedEdge; infer_instance

/-- No two edges of the list join the same unordered pair (no duplicate or
parallel edges). -/
def noParallelEdges (edges : List Edge) : Prop :=
  edges.Pairwise fun e1 e2 => ¬ sameUndirectedEdge e1 e2

instance (edges : List Edge) : Decidable (noParallelEdges edges) := by
  unfold noParallelEdges; infer_instance

/-- One-edge adjacency, read off `getNeighbors`. -/
def adjacent (edges : List Edge) (a b : String) : Prop :=
  b ∈ getNeighbors edges a

/-- Reachability: the reflexive-transitive closure of adjacency. -/
def Reach (edges : List Edge) : String → String → Prop :=
  Relation.ReflTransGen (adjacent edges)

/-- Spec-level neighbor computation, following the spec text: scan the edges in
insertion order; an edge matches when either endpoint equals the current node,
and yields the other endpoint. -/
def specNeighborsOf (edges : List Edge) (current : String) : List String :=
  edges.filterMap fun edge =>
    if edge.from_ = current then some edge.to_
    else if edge.to_ = current then some edge.from_
    else none

/-- A node at the origin with the given numeric identifier. -/
def mkNode (i : Nat) : Node := { id := toString i, x := 0, y := 0 }

/-- The spec's worked example: nodes 1,2,3,4, undirected edges
(1-2),(1-3),(2-4) inserted in that order, run flag on, awaiting a start. -/
def ex4State : AppState :=
  { initialState with
    nodes := [mkNode 1, mkNode 2, mkNode 3, mkNode 4],
    edges := [⟨"1", "2"⟩, ⟨"1", "3"⟩, ⟨"2", "4"⟩],
    isRunning := true }

/-- An editing-mode state with two nodes and node 1 pending selection. -/
def exEditState : AppState :=
  { initialState with
    nodes := [mkNode 1, mkNode 2], selectedNode := some "1" }

/-- A mid-run state: start node 1 already visited and queued. -/
def exVisitedState : AppState :=
  { initialState with
    nodes := [mkNode 1], visitedNodes := ["1"],
    currentQueue := ["1"], isRunning := true, startNode := some "1" }

/-- Two nodes joined by a duplicate (parallel) edge, run flag on, awaiting a
start: the graph exercising the missing same-step deduplication. -/
def cexDupState : AppState :=
  { initialState with
    nodes := [mkNode 1, mkNode 2],
    edges := [⟨"1", "2"⟩, ⟨"1", "2"⟩], isRunning := true }

/-- Two nodes joined by a single edge, run flag on, awaiting a start. -/
def exPathState : AppState :=
  { initialState with
    nodes := [mkNode 1, mkNode 2],
    edges := [⟨"1", "2"⟩], isRunning := true }

/-- The BFS loop invariant over a universe `ids` of node identifiers: the
frontier sits inside the visited sequence, both are duplicate-free, visited
identifiers come from `ids`, and every visited node no longer on the frontier
has all its neighbors visited. -/
def BfsInv (ids : List String) (s : AppState) : Prop :=
  s.currentQueue ⊆ s.visitedNodes ∧
  s.visitedNodes.Nodup ∧
  s.currentQueue.Nodup ∧
  s.visitedNodes ⊆ ids ∧
  ∀ a ∈ s.visitedNodes, a ∉ s.currentQueue →
    getNeighbors s.edges a ⊆ s.visitedNodes

/-- Repeated `addNode` clicks at the given coordinates. -/
def addNodes (s : AppState) (ps : List (Int × Int)) : AppState :=
  ps.foldl (fun t p => addNode t p.1 p.2) s

/-- The decimal identifiers `start, start+1, ..., start+k-1` as strings. -/
def seqIds (start k : Nat) : List String :=
  (List.range k).map fun i => toString (start + i)

/-! ### Basic unfolding lemmas -/

theorem performBFSStep_of_nil {s : AppState} (h : s.currentQueue = []) :
    performBFSStep s = s := by
  unfold performBFSStep
  rw [h]

theorem performBFSStep_of_noStart {s : AppState} (h : s.startNode = none) :
    performBFSStep s = s := by
  unfold performBFSStep
  rw [h]
  rcases s.currentQueue with _ | ⟨c, rest⟩ <;> rfl

theorem performBFSStep_of_cons {s : AppState} {c : String} {rest : List String}
    {st : String} (h : s.currentQueue = c :: rest) (h2 : s.startNode = some st) :
    performBFSStep s =
      { s with
        currentQueue := rest ++ unvisitedNeighbors s.edges s.visitedNodes c,
        visitedNodes := s.visitedNodes ++ unvisitedNeighbors s.edges s.visitedNodes c } := by
  unfold performBFSStep
  rw [h, h2]

theorem performBFSStep_edges (s : AppState) : (performBFSStep s).edges = s.edges := by
  rcases hq : s.currentQueue with _ | ⟨c, rest⟩
  · rw [performBFSStep_of_nil hq]
  · rcases hs : s.startNode with _ | st
    · rw [performBFSStep_of_noStart hs]
    · rw [performBFSStep_of_cons hq hs]

theorem performBFSStep_startNode (s : AppState) :
    (performBFSStep s).startNode = s.startNode := by
  rcases hq : s.currentQueue with _ | ⟨c, rest⟩
  · rw [performBFSStep_of_nil hq]
  · rcases hs : s.startNode with _ | st
    · rw [performBFSStep_of_noStart hs]
      exact hs
    · rw [performBFSStep_of_cons hq hs]
      exact hs

theorem handleNodeClick_start {s : AppState} (id : String)
    (hrun : s.isRunning = true) (hstart : s.startNode = none) :
    handleNodeClick s id =
      { s with startNode := some id, visitedNodes := [id], currentQueue := [id] } := by
  simp [handleNodeClick, hrun, hstart]

theorem handleNodeClick_started {s : AppState} (id : String)
    (hrun : s.isRunning = true) {st : String} (hstart : s.startNode = some st) :
    handleNodeClick s id = s := by
  simp [handleNodeClick, hrun, hstart]

theorem step_preserves_queue_subset {s : AppState}
    (h : s.currentQueue ⊆ s.visitedNodes) :
    (performBFSStep s).currentQueue ⊆ (performBFSStep s).visitedNodes := by
  rcases hq : s.currentQueue with _ | ⟨c, rest⟩
  · rw [performBFSStep_of_nil hq]
    exact h
  · rcases hs : s.startNode with _ | st
    · rw [performBFSStep_of_noStart hs]
      exact h
    · rw [performBFSStep_of_cons hq hs]
      have hsub : (rest ++ unvisitedNeighbors s.edges s.visitedNodes c) ⊆
          (s.visitedNodes ++ unvisitedNeighbors s.edges s.visitedNodes c) := by
        intro x hx
        rcases List.mem_append.mp hx with hx | hx
        · exact List.mem_append.mpr (Or.inl (h (by rw [hq]; exact List.mem_cons_of_mem _ hx)))
        · exact List.mem_append.mpr (Or.inr hx)
      exact hsub

theorem click_preserves_queue_subset {s : AppState} (id : String)
    (hrun : s.isRunning = true) (h : s.currentQueue ⊆ s.visitedNodes) :
    (handleNodeClick s id).currentQueue ⊆ (handleNodeClick s id).visitedNodes := by
  rcases hst : s.startNode with _ | st
  · rw [handleNodeClick_start id hrun hst]
    exact List.Subset.refl _
  · rw [handleNodeClick_started id hrun hst]
    exact h

/-! ### Claim theorems -/

/-- C5: a node click received while the run flag is on and no start node has
been chosen yet (the `setStart` operation) records the clicked node as start
node and sets both the visited sequence and the frontier to the one-element
sequence holding it. -/
theorem setStart_initializes (s : AppState) (id : String)
    (hrun : s.isRunning = true) (hstart : s.startNode = none) :
    (handleNodeClick s id).startNode = some id ∧
    (handleNodeClick s id).visitedNodes = [id] ∧
    (handleNodeClick s id).currentQueue = [id] := by
  rw [handleNodeClick_start id hrun hstart]
  exact ⟨rfl, rfl, rfl⟩

theorem setStart_initializes_witness :
    ex4State.isRunning = true ∧ ex4State.startNode = none ∧
    (handleNodeClick ex4State "1").visitedNodes = ["1"] ∧
    (handleNodeClick ex4State "1").currentQueue = ["1"] :=
  ⟨rfl, rfl, (setStart_initializes ex4State "1" rfl rfl).2.1,
    (setStart_initializes ex4State "1" rfl rfl).2.2⟩

/-- C6: when the frontier is empty or no start node has been set, `step()`
returns the state unchanged (every field), signalling no error. -/
theorem step_is_noop_without_precondition (s : AppState)
    (h : s.currentQueue = [] ∨ s.startNode = none) : performBFSStep s = s := by
  rcases h with h | h
  · exact performBFSStep_of_nil h
  · exact performBFSStep_of_noStart h

theorem step_is_noop_without_precondition_witness :
    (initialState.currentQueue = [] ∨ initialState.startNode = none) ∧
    performBFSStep initialState = initialState :=
  ⟨Or.inl rfl, step_is_noop_without_precondition initialState (Or.inl rfl)⟩

/-- C7: in editing mode with node `a` pending, clicking a different node `b`
appends exactly the one edge (a,b) and clears the pending selection, while
clicking `a` again creates no edge and clears the selection; the node list is
unchanged in both cases (the full record is otherwise untouched). -/
theorem pending_click_connects_or_cancels (s : AppState) (a b : String)
    (hrun : s.isRunning = false) (hsel : s.selectedNode = some a) :
    (b ≠ a →
      handleNodeClick s b =
        { s with edges := s.edges ++ [{ from_ := a, to_ := b }],
                 selectedNode := none }) ∧
    handleNodeClick s a = { s with selectedNode := none } := by
  constructor
  · intro hne
    simp [handleNodeClick, hrun, hsel, Ne.symm hne]
  · simp [handleNodeClick, hrun, hsel]

theorem pending_click_connects_or_cancels_witness :
    exEditState.isRunning = false ∧ exEditState.selectedNode = some "1" ∧
    handleNodeClick exEditState "2" =
      { exEditState with
        edges := exEditState.edges ++ [{ from_ := "1", to_ := "2" }],
        selectedNode := none } ∧
    handleNodeClick exEditState "1" = { exEditState with selectedNode := none } :=
  ⟨rfl, rfl,
    (pending_click_connects_or_cancels exEditState "1" "2" rfl rfl).1 (by decide),
    (pending_click_connects_or_cancels exEditState "1" "2" rfl rfl).2⟩

/-- C9: when the visited sequence is non-empty (so the narration call is made),
a failing call sets the displayed explanation to exactly the fixed fallback
string, and whatever the outcome of the call, the traversal state (nodes,
edges, visited, frontier, start node, running flag) is unchanged. -/
theorem narration_failure_shows_fallback (s : AppState) (err : String)
    (r : Except String String) (h : s.visitedNodes ≠ []) :
    (generateExplanation s (Except.error err)).explanation = narrationFallback ∧
    (generateExplanation s r).nodes = s.nodes ∧
    (generateExplanation s r).edges = s.edges ∧
    (generateExplanation s r).visitedNodes = s.visitedNodes ∧
    (generateExplanation s r).currentQueue = s.currentQueue ∧
    (generateExplanation s r).startNode = s.startNode ∧
    (generateExplanation s r).isRunning = s.isRunning := by
  have hlen : ¬ s.visitedNodes.length = 0 := by
    simpa [List.length_eq_zero] using h
  refine ⟨by simp [generateExplanation, hlen], ?_⟩
  rcases r with t | t <;> simp [generateExplanation, hlen]

theorem narration_failure_shows_fallback_witness :
    exVisitedState.visitedNodes ≠ [] ∧
    (generateExplanation exVisitedState (Except.error "boom")).explanation
      = narrationFallback ∧
    (generateExplanation exVisitedState (Except.ok "fine")).visitedNodes
      = exVisitedState.visitedNodes :=
  ⟨by decide,
    (narration_failure_shows_fallback exVisitedState "boom" (Except.ok "fine")
      (by decide)).1,
    (narration_failure_shows_fallback exVisitedState "boom" (Except.ok "fine")
      (by decide)).2.2.2.1⟩

/-- C10: every traversal operation (setStart, step, reset) preserves the
invariant that each frontier element also occurs in the visited sequence. -/
theorem frontier_subset_visited_preserved (s : AppState) (id : String)
    (h : s.currentQueue ⊆ s.visitedNodes) :
    (handleNodeClick { s with isRunning := true } id).currentQueue ⊆
      (handleNodeClick { s with isRunning := true } id).visitedNodes ∧
    (performBFSStep s).currentQueue ⊆ (performBFSStep s).visitedNodes ∧
    (resetVisualization s).currentQueue ⊆ (resetVisualization s).visitedNodes := by
  exact ⟨click_preserves_queue_subset id rfl h, step_preserves_queue_subset h,
    List.nil_subset _⟩

theorem frontier_subset_visited_preserved_witness :
    exVisitedState.currentQueue ⊆ exVisitedState.visitedNodes ∧
    (performBFSStep exVisitedState).currentQueue ⊆
      (performBFSStep exVisitedState).visitedNodes :=
  ⟨by decide,
    (frontier_subset_visited_preserved exVisitedState "1" (by decide)).2.1⟩

/-- C3: on the worked example graph (nodes 1..4, edges (1-2),(1-3),(2-4)),
choosing start node 1 and stepping four times produces exactly the visited
sequences and frontiers listed in the spec. -/
theorem example_trace_matches :
    (handleNodeClick ex4State "1").visitedNodes = ["1"] ∧
    (handleNodeClick ex4State "1").currentQueue = ["1"] ∧
    (performBFSStep^[1] (handleNodeClick ex4State "1")).visitedNodes
      = ["1", "2", "3"] ∧
    (performBFSStep^[1] (handleNodeClick ex4State "1")).currentQueue
      = ["2", "3"] ∧
    (performBFSStep^[2] (handleNodeClick ex4State "1")).visitedNodes
      = ["1", "2", "3", "4"] ∧
    (performBFSStep^[2] (handleNodeClick ex4State "1")).currentQueue
      = ["3", "4"] ∧
    (performBFSStep^[3] (handleNodeClick ex4State "1")).currentQueue = ["4"] ∧
    (performBFSStep^[4] (handleNodeClick ex4State "1")).currentQueue = [] := by
  decide

theorem getNeighbors_eq_spec (edges : List Edge) (current : String) :
    getNeighbors edges current = specNeighborsOf edges current := by
  induction edges with
  | nil => rfl
  | cons e rest ih =>
    unfold getNeighbors specNeighborsOf at ih ⊢
    simp only [beq_iff_eq] at ih
    by_cases h1 : e.from_ = current
    · simp [List.filter_cons, List.filterMap_cons, h1, ih]
    · by_cases h2 : e.to_ = current
      · simp [List.filter_cons, List.filterMap_cons, h1, h2, ih]
      · simp [List.filter_cons, List.filterMap_cons, h1, h2, ih]

/-- C4: with a non-empty frontier and a start node set, one step pops the
frontier head, computes its neighbors by scanning the edges in insertion order
with symmetric endpoint matching, drops the ones already in the visited
sequence, and appends the survivors in that order to the popped frontier and
to the visited sequence. -/
theorem step_follows_spec_algorithm (s : AppState) (c : String)
    (rest : List String) (st : String)
    (hq : s.currentQueue = c :: rest) (hs : s.startNode = some st) :
    performBFSStep s =
      { s with
        currentQueue := rest ++ ((specNeighborsOf s.edges c).filter
          fun n => !(s.visitedNodes.contains n)),
        visitedNodes := s.visitedNodes ++ ((specNeighborsOf s.edges c).filter
          fun n => !(s.visitedNodes.contains n)) } := by
  rw [performBFSStep_of_cons hq hs]
  unfold unvisitedNeighbors
  rw [getNeighbors_eq_spec]

theorem step_follows_spec_algorithm_witness :
    (handleNodeClick ex4State "1").currentQueue = ["1"] ∧
    (handleNodeClick ex4State "1").startNode = some "1" ∧
    performBFSStep (handleNodeClick ex4State "1") =
      { handleNodeClick ex4State "1" with
        currentQueue := [] ++ ((specNeighborsOf (handleNodeClick ex4State "1").edges "1").filter
          fun n => !((handleNodeClick ex4State "1").visitedNodes.contains n)),
        visitedNodes := (handleNodeClick ex4State "1").visitedNodes ++
          ((specNeighborsOf (handleNodeClick ex4State "1").edges "1").filter
            fun n => !((handleNodeClick ex4State "1").visitedNodes.contains n)) } :=
  ⟨rfl, rfl, step_follows_spec_algorithm (handleNodeClick ex4State "1") "1" [] "1" rfl rfl⟩

/-- C2 counterexample: on the graph with the duplicate edge (1-2),(1-2),
the operation sequence setStart(1); step() puts node 2 twice into the visited
sequence, refuting the claim for graphs with duplicate edges. -/
theorem visited_nodup_counterexample :
    (runBfsOps cexDupState [BfsOp.setStart "1", BfsOp.step]).visitedNodes
      = ["1", "2", "2"] ∧
    ¬ (runBfsOps cexDupState [BfsOp.setStart "1", BfsOp.step]).visitedNodes.Nodup := by
  decide

/-- C1 counterexample: in the two-node graph with the duplicate edge
(1-2),(1-2) both nodes are reachable from start node 1, yet after
|V| = 2 steps from the post-setStart state the frontier is still non-empty. -/
theorem termination_bound_counterexample :
    cexDupState.nodes.length = 2 ∧
    Reach cexDupState.edges "1" "1" ∧
    Reach cexDupState.edges "1" "2" ∧
    (performBFSStep^[2] (handleNodeClick cexDupState "1")).currentQueue ≠ [] := by
  refine ⟨rfl, Relation.ReflTransGen.refl, Relation.ReflTransGen.single ?_, by decide⟩
  show ("2" : String) ∈ getNeighbors cexDupState.edges "1"
  decide

/-! ### Properties of `getNeighbors` on graphs without parallel edges -/

theorem sameUndirectedEdge_refl (e : Edge) : sameUndirectedEdge e e :=
  Or.inl ⟨rfl, rfl⟩

theorem sameUndirectedEdge_symm {e1 e2 : Edge} (h : sameUndirectedEdge e1 e2) :
    sameUndirectedEdge e2 e1 := by
  rcases h with ⟨h1, h2⟩ | ⟨h1, h2⟩
  · exact Or.inl ⟨h1.symm, h2.symm⟩
  · exact Or.inr ⟨h2.symm, h1.symm⟩

theorem edges_nodup_of_noParallel {edges : List Edge}
    (hE : noParallelEdges edges) : edges.Nodup := by
  refine hE.imp ?_
  intro a b hne heq
  exact hne (by rw [heq]; exact sameUndirectedEdge_refl b)

theorem matched_endpoints_same {c : String} {x y : Edge}
    (px : x.from_ = c ∨ x.to_ = c) (py : y.from_ = c ∨ y.to_ = c)
    (hf : (if x.from_ == c then x.to_ else x.from_)
        = (if y.from_ == c then y.to_ else y.from_)) :
    sameUndirectedEdge x y := by
  by_cases hx : x.from_ = c <;> by_cases hy : y.from_ = c <;>
    simp [hx, hy] at hf
  · exact Or.inl ⟨hx.trans hy.symm, hf⟩
  · rcases py with py | py
    · exact absurd py hy
    · exact Or.inr ⟨hx.trans py.symm, hf⟩
  · rcases px with px | px
    · exact absurd px hx
    · exact Or.inr ⟨hf, px.trans hy.symm⟩
  · rcases px with px | px
    · exact absurd px hx
    · rcases py with py | py
      · exact absurd py hy
      · exact Or.inl ⟨hf, px.trans py.symm⟩

theorem getNeighbors_nodup {edges : List Edge} (hE : noParallelEdges edges)
    (c : String) : (getNeighbors edges c).Nodup := by
  unfold getNeighbors
  have hfsub : ∀ x ∈ edges.filter
      (fun edge => edge.from_ == c || edge.to_ == c), x ∈ edges :=
    fun x hx => (List.mem_filter.mp hx).1
  have hmatch : ∀ x ∈ edges.filter
      (fun edge => edge.from_ == c || edge.to_ == c),
      x.from_ = c ∨ x.to_ = c := by
    intro x hx
    have := (List.mem_filter.mp hx).2
    simpa using this
  have hnd : (edges.filter (fun edge => edge.from_ == c || edge.to_ == c)).Nodup :=
    (edges_nodup_of_noParallel hE).filter _
  have hsymmNot : Symmetric fun e1 e2 => ¬ sameUndirectedEdge e1 e2 := by
    intro x y h hs
    exact h (sameUndirectedEdge_symm hs)
  have hpair : ∀ x ∈ edges, ∀ y ∈ edges, x ≠ y → ¬ sameUndirectedEdge x y :=
    fun x hx y hy hne => hE.forall hsymmNot hx hy hne
  refine List.Nodup.map_on ?_ hnd
  intro x hx y hy hf
  by_cases hxy : x = y
  · exact hxy
  · exact absurd
      (matched_endpoints_same (hmatch x hx) (hmatch y hy) hf)
      (hpair x (hfsub x hx) y (hfsub y hy) hxy)

theorem mem_getNeighbors_endpoints {edges : List Edge} {c b : String}
    (h : b ∈ getNeighbors edges c) :
    ∃ e ∈ edges, b = e.from_ ∨ b = e.to_ := by
  unfold getNeighbors at h
  rcases List.mem_map.mp h with ⟨e, he, hv⟩
  refine ⟨e, (List.mem_filter.mp he).1, ?_⟩
  by_cases hx : e.from_ = c
  · simp [hx] at hv
    exact Or.inr hv.symm
  · simp [hx] at hv
    exact Or.inl hv.symm

theorem mem_unvisitedNeighbors {edges : List Edge} {visited : List String}
    {c x : String} :
    x ∈ unvisitedNeighbors edges visited c ↔
      x ∈ getNeighbors edges c ∧ x ∉ visited := by
  unfold unvisitedNeighbors
  simp [List.mem_filter]

theorem unvisitedNeighbors_nodup {edges : List Edge} (hE : noParallelEdges edges)
    (visited : List String) (c : String) :
    (unvisitedNeighbors edges visited c).Nodup :=
  (getNeighbors_nodup hE c).filter _

theorem visited_append_fresh_nodup {edges : List Edge} {visited : List String}
    (hE : noParallelEdges edges) (hV : visited.Nodup) (c : String) :
    (visited ++ unvisitedNeighbors edges visited c).Nodup := by
  rw [List.nodup_append]
  refine ⟨hV, unvisitedNeighbors_nodup hE visited c, ?_⟩
  intro a ha ha'
  exact (mem_unvisitedNeighbors.mp ha').2 ha

/-! ### The BFS invariant and its preservation -/

theorem bfsInv_step {ids : List String} {s : AppState}
    (hE : noParallelEdges s.edges)
    (hend : ∀ e ∈ s.edges, e.from_ ∈ ids ∧ e.to_ ∈ ids)
    (h : BfsInv ids s) : BfsInv ids (performBFSStep s) := by
  rcases hq : s.currentQueue with _ | ⟨c, rest⟩
  · rw [performBFSStep_of_nil hq]
    exact h
  rcases hs : s.startNode with _ | st
  · rw [performBFSStep_of_noStart hs]
    exact h
  obtain ⟨hQV, hVnd, hQnd, hVids, hclosed⟩ := h
  have hcV : c ∈ s.visitedNodes := hQV (by rw [hq]; exact List.mem_cons_self c rest)
  have hrestQ : ∀ x ∈ rest, x ∈ s.currentQueue := by
    intro x hx
    rw [hq]
    exact List.mem_cons_of_mem _ hx
  have hcrest : c ∉ rest ∧ rest.Nodup := by
    have h' := hQnd
    rw [hq] at h'
    exact List.nodup_cons.mp h'
  rw [performBFSStep_of_cons hq hs]
  refine ⟨?_, ?_, ?_, ?_, ?_⟩
  · show rest ++ unvisitedNeighbors s.edges s.visitedNodes c ⊆
      s.visitedNodes ++ unvisitedNeighbors s.edges s.visitedNodes c
    intro x hx
    rcases List.mem_append.mp hx with hx | hx
    · exact List.mem_append.mpr (Or.inl (hQV (hrestQ x hx)))
    · exact List.mem_append.mpr (Or.inr hx)
  · show (s.visitedNodes ++ unvisitedNeighbors s.edges s.visitedNodes c).Nodup
    exact visited_append_fresh_nodup hE hVnd c
  · show (rest ++ unvisitedNeighbors s.edges s.visitedNodes c).Nodup
    rw [List.nodup_append]
    refine ⟨hcrest.2, unvisitedNeighbors_nodup hE _ c, ?_⟩
    intro a ha ha'
    exact (mem_unvisitedNeighbors.mp ha').2 (hQV (hrestQ a ha))
  · show s.visitedNodes ++ unvisitedNeighbors s.edges s.visitedNodes c ⊆ ids
    intro x hx
    rcases List.mem_append.mp hx with hx | hx
    · exact hVids hx
    · rcases mem_getNeighbors_endpoints (mem_unvisitedNeighbors.mp hx).1 with
        ⟨e, he, hb | hb⟩
      · rw [hb]
        exact (hend e he).1
      · rw [hb]
        exact (hend e he).2
  · show ∀ a ∈ s.visitedNodes ++ unvisitedNeighbors s.edges s.visitedNodes c,
      a ∉ rest ++ unvisitedNeighbors s.edges s.visitedNodes c →
      getNeighbors s.edges a ⊆
        s.visitedNodes ++ unvisitedNeighbors s.edges s.visitedNodes c
    intro a ha hna b hb
    rcases List.mem_append.mp ha with haV | haU
    · by_cases hac : a = c
      · subst hac
        by_cases hbV : b ∈ s.visitedNodes
        · exact List.mem_append.mpr (Or.inl hbV)
        · exact List.mem_append.mpr (Or.inr (mem_unvisitedNeighbors.mpr ⟨hb, hbV⟩))
      · have hanotQ : a ∉ s.currentQueue := by
          rw [hq]
          intro hmem
          rcases List.mem_cons.mp hmem with h1 | h1
          · exact hac h1
          · exact hna (List.mem_append.mpr (Or.inl h1))
        exact List.mem_append.mpr (Or.inl (hclosed a haV hanotQ hb))
    · exact absurd (List.mem_append.mpr (Or.inr haU)) hna

theorem iterate_edges (s : AppState) (d : Nat) :
    (performBFSStep^[d] s).edges = s.edges := by
  induction d with
  | zero => rfl
  | succ n ih => rw [Function.iterate_succ_apply', performBFSStep_edges, ih]

theorem iterate_startNode (s : AppState) (d : Nat) :
    (performBFSStep^[d] s).startNode = s.startNode := by
  induction d with
  | zero => rfl
  | succ n ih => rw [Function.iterate_succ_apply', performBFSStep_startNode, ih]

theorem bfsInv_iterate {ids : List String} {s : AppState}
    (hE : noParallelEdges s.edges)
    (hend : ∀ e ∈ s.edges, e.from_ ∈ ids ∧ e.to_ ∈ ids)
    (h : BfsInv ids s) (d : Nat) : BfsInv ids (performBFSStep^[d] s) := by
  induction d with
  | zero => exact h
  | succ n ih =>
    rw [Function.iterate_succ_apply']
    have he : (performBFSStep^[n] s).edges = s.edges := iterate_edges s n
    exact bfsInv_step (by rw [he]; exact hE) (by rw [he]; exact hend) ih

theorem step_visited_mono (s : AppState) :
    s.visitedNodes ⊆ (performBFSStep s).visitedNodes := by
  rcases hq : s.currentQueue with _ | ⟨c, rest⟩
  · rw [performBFSStep_of_nil hq]
    exact List.Subset.refl _
  · rcases hs : s.startNode with _ | st
    · rw [performBFSStep_of_noStart hs]
      exact List.Subset.refl _
    · rw [performBFSStep_of_cons hq hs]
      exact fun x hx => List.mem_append.mpr (Or.inl hx)

theorem iterate_visited_mono (s : AppState) (d : Nat) :
    s.visitedNodes ⊆ (performBFSStep^[d] s).visitedNodes := by
  induction d with
  | zero => exact List.Subset.refl _
  | succ n ih =>
    rw [Function.iterate_succ_apply']
    exact ih.trans (step_visited_mono _)

/-! ### Termination counting -/

theorem step_length_eq {s : AppState} {st : String}
    (hq : s.currentQueue ≠ []) (hs : s.startNode = some st) :
    (performBFSStep s).visitedNodes.length + s.currentQueue.length
      = s.visitedNodes.length + (performBFSStep s).currentQueue.length + 1 := by
  rcases hq' : s.currentQueue with _ | ⟨c, rest⟩
  · exact absurd hq' hq
  · rw [performBFSStep_of_cons hq' hs]
    show (s.visitedNodes ++ unvisitedNeighbors s.edges s.visitedNodes c).length
        + (c :: rest).length
      = s.visitedNodes.length
        + (rest ++ unvisitedNeighbors s.edges s.visitedNodes c).length + 1
    simp only [List.length_append, List.length_cons]
    omega

theorem iterate_queue_growth {s : AppState} {st : String}
    (hs : s.startNode = some st)
    (h0 : s.visitedNodes.length = s.currentQueue.length) :
    ∀ d : Nat, (performBFSStep^[d] s).currentQueue ≠ [] →
      (performBFSStep^[d] s).currentQueue.length + d
        ≤ (performBFSStep^[d] s).visitedNodes.length := by
  intro d
  induction d with
  | zero =>
    intro _
    simp only [Function.iterate_zero_apply]
    omega
  | succ n ih =>
    intro hne
    by_cases hqn : (performBFSStep^[n] s).currentQueue = []
    · exfalso
      apply hne
      rw [Function.iterate_succ_apply', performBFSStep_of_nil hqn]
      exact hqn
    · have ih' := ih hqn
      have hsn : (performBFSStep^[n] s).startNode = some st := by
        rw [iterate_startNode]
        exact hs
      have hcount := step_length_eq hqn hsn
      rw [Function.iterate_succ_apply']
      omega

theorem queue_empty_after_card {ids : List String} {s : AppState} {st : String}
    (hE : noParallelEdges s.edges)
    (hend : ∀ e ∈ s.edges, e.from_ ∈ ids ∧ e.to_ ∈ ids)
    (h : BfsInv ids s)
    (h0 : s.visitedNodes.length = s.currentQueue.length)
    (hs : s.startNode = some st) :
    (performBFSStep^[ids.length] s).currentQueue = [] := by
  by_contra hne
  have hgrow := iterate_queue_growth hs h0 ids.length hne
  have hinv := bfsInv_iterate hE hend h ids.length
  have hlen : (performBFSStep^[ids.length] s).visitedNodes.length ≤ ids.length :=
    ((hinv.2.1).subperm hinv.2.2.2.1).length_le
  have hpos : 0 < (performBFSStep^[ids.length] s).currentQueue.length :=
    List.length_pos.mpr hne
  omega

/-! ### Completeness at termination -/

theorem reachable_mem_visited {ids : List String} {s : AppState}
    (h : BfsInv ids s) (hq : s.currentQueue = [])
    {start : String} (hstart : start ∈ s.visitedNodes) :
    ∀ b, Reach s.edges start b → b ∈ s.visitedNodes := by
  intro b hb
  have hb' : Relation.ReflTransGen (adjacent s.edges) start b := hb
  clear hb
  induction hb' with
  | refl => exact hstart
  | tail hab hr ih =>
    exact h.2.2.2.2 _ ih (by rw [hq]; exact List.not_mem_nil _) hr

/-! ### Amended main theorems -/

theorem click_visited_nodup {s : AppState} (id : String)
    (hrun : s.isRunning = true) (hV : s.visitedNodes.Nodup) :
    (handleNodeClick s id).visitedNodes.Nodup := by
  rcases hst : s.startNode with _ | st
  · rw [handleNodeClick_start id hrun hst]
    exact List.nodup_singleton _
  · rw [handleNodeClick_started id hrun hst]
    exact hV

theorem click_edges_of_running {s : AppState} (id : String)
    (hrun : s.isRunning = true) : (handleNodeClick s id).edges = s.edges := by
  rcases hst : s.startNode with _ | st
  · rw [handleNodeClick_start id hrun hst]
  · rw [handleNodeClick_started id hrun hst]

theorem step_preserves_visited_nodup {s : AppState}
    (hE : noParallelEdges s.edges) (hV : s.visitedNodes.Nodup) :
    (performBFSStep s).visitedNodes.Nodup := by
  rcases hq : s.currentQueue with _ | ⟨c, rest⟩
  · rw [performBFSStep_of_nil hq]
    exact hV
  · rcases hs : s.startNode with _ | st
    · rw [performBFSStep_of_noStart hs]
      exact hV
    · rw [performBFSStep_of_cons hq hs]
      exact visited_append_fresh_nodup hE hV c

theorem applyBfsOp_edges (s : AppState) (op : BfsOp) :
    (applyBfsOp s op).edges = s.edges := by
  cases op with
  | setStart id => exact click_edges_of_running id rfl
  | step => exact performBFSStep_edges s

theorem applyBfsOp_visited_nodup {s : AppState} (op : BfsOp)
    (hE : noParallelEdges s.edges) (hV : s.visitedNodes.Nodup) :
    (applyBfsOp s op).visitedNodes.Nodup := by
  cases op with
  | setStart id => exact click_visited_nodup id rfl hV
  | step => exact step_preserves_visited_nodup hE hV

/-- C2 (amended): on a graph with no duplicate (parallel) edges, no node
identifier ever occurs twice in the visited sequence, whatever sequence of
setStart and step operations is run from a state whose visited sequence is
duplicate-free (in particular from the pre-run state, where it is empty). -/
theorem visited_nodup_all_ops (ops : List BfsOp) (s : AppState)
    (hE : noParallelEdges s.edges) (hV : s.visitedNodes.Nodup) :
    (runBfsOps s ops).visitedNodes.Nodup := by
  induction ops generalizing s with
  | nil => exact hV
  | cons op rest ih =>
    have h1 : runBfsOps s (op :: rest) = runBfsOps (applyBfsOp s op) rest := rfl
    rw [h1]
    exact ih _ (by rw [applyBfsOp_edges]; exact hE)
      (applyBfsOp_visited_nodup op hE hV)

theorem visited_nodup_all_ops_witness :
    noParallelEdges exPathState.edges ∧ exPathState.visitedNodes.Nodup ∧
    (runBfsOps exPathState
      [BfsOp.setStart "1", BfsOp.step, BfsOp.step]).visitedNodes.Nodup :=
  ⟨by decide, by decide,
    visited_nodup_all_ops [BfsOp.setStart "1", BfsOp.step, BfsOp.step]
      exPathState (by decide) (by decide)⟩

/-- C1 (amended): for a graph with no duplicate (parallel) edges, whose edges
join graph nodes and whose start node is a graph node, in which every node is
reachable from the start node, repeatedly invoking step from the post-setStart
state empties the frontier within |V| steps and the visited sequence then holds
exactly the node identifiers of the graph. -/
theorem bfs_terminates_and_visits_component (s : AppState) (start : String)
    (hrun : s.isRunning = true) (hstart0 : s.startNode = none)
    (hE : noParallelEdges s.edges)
    (hend : ∀ e ∈ s.edges, e.from_ ∈ nodeIds s ∧ e.to_ ∈ nodeIds s)
    (hmem : start ∈ nodeIds s)
    (hreach : ∀ x ∈ nodeIds s, Reach s.edges start x) :
    (performBFSStep^[s.nodes.length] (handleNodeClick s start)).currentQueue
      = [] ∧
    (performBFSStep^[s.nodes.length] (handleNodeClick s start)).visitedNodes
      ⊆ nodeIds s ∧
    nodeIds s ⊆
      (performBFSStep^[s.nodes.length] (handleNodeClick s start)).visitedNodes := by
  rw [handleNodeClick_start start hrun hstart0]
  set t : AppState :=
    { s with startNode := some start, visitedNodes := [start],
             currentQueue := [start] } with ht
  have hEt : noParallelEdges t.edges := hE
  have hendt : ∀ e ∈ t.edges, e.from_ ∈ nodeIds s ∧ e.to_ ∈ nodeIds s := hend
  have hInv : BfsInv (nodeIds s) t := by
    refine ⟨List.Subset.refl _, List.nodup_singleton _, List.nodup_singleton _,
      ?_, ?_⟩
    · intro x hx
      have hx' : x = start := List.mem_singleton.mp hx
      rw [hx']
      exact hmem
    · intro a ha hna
      exact absurd ha hna
  have hterm : (performBFSStep^[(nodeIds s).length] t).currentQueue = [] :=
    queue_empty_after_card hEt hendt hInv rfl rfl
  have hNlen : (nodeIds s).length = s.nodes.length := by
    simp [nodeIds]
  rw [hNlen] at hterm
  have hinvN : BfsInv (nodeIds s) (performBFSStep^[s.nodes.length] t) :=
    bfsInv_iterate hEt hendt hInv s.nodes.length
  refine ⟨hterm, hinvN.2.2.2.1, ?_⟩
  intro x hx
  have hstartV : start ∈ (performBFSStep^[s.nodes.length] t).visitedNodes :=
    iterate_visited_mono t s.nodes.length (List.mem_singleton.mpr rfl)
  have hedN : (performBFSStep^[s.nodes.length] t).edges = s.edges :=
    iterate_edges t s.nodes.length
  exact reachable_mem_visited hinvN hterm hstartV x
    (by rw [hedN]; exact hreach x hx)

theorem exPathState_reach_all :
    ∀ x ∈ nodeIds exPathState, Reach exPathState.edges "1" x := by
  intro x hx
  have hids : nodeIds exPathState = ["1", "2"] := by decide
  rw [hids] at hx
  have hx' : x = "1" ∨ x = "2" := by simpa using hx
  rcases hx' with h | h
  · rw [h]
    exact Relation.ReflTransGen.refl
  · rw [h]
    exact Relation.ReflTransGen.single
      (by decide : ("2" : String) ∈ getNeighbors exPathState.edges "1")

theorem bfs_terminates_and_visits_component_witness :
    exPathState.isRunning = true ∧ exPathState.startNode = none ∧
    noParallelEdges exPathState.edges ∧
    (performBFSStep^[exPathState.nodes.length]
        (handleNodeClick exPathState "1")).currentQueue = [] ∧
    nodeIds exPathState ⊆
      (performBFSStep^[exPathState.nodes.length]
        (handleNodeClick exPathState "1")).visitedNodes :=
  ⟨rfl, rfl, by decide,
    (bfs_terminates_and_visits_component exPathState "1" rfl rfl (by decide)
      (by decide) (by decide) exPathState_reach_all).1,
    (bfs_terminates_and_visits_component exPathState "1" rfl rfl (by decide)
      (by decide) (by decide) exPathState_reach_all).2.2⟩

/-! ### Injectivity of the decimal identifier assignment -/

theorem asString_injective : Function.Injective List.asString := by
  intro a b h
  exact congrArg String.data h

theorem digitChar_injOn {a b : Nat} (ha : a < 10) (hb : b < 10)
    (h : Nat.digitChar a = Nat.digitChar b) : a = b := by
  have key : ∀ x : Fin 10, ∀ y : Fin 10,
      Nat.digitChar x.val = Nat.digitChar y.val → x.val = y.val := by decide
  exact key ⟨a, ha⟩ ⟨b, hb⟩ h

theorem map_digitChar_injOn : ∀ l1 l2 : List Nat, (∀ x ∈ l1, x < 10) →
    (∀ x ∈ l2, x < 10) → l1.map Nat.digitChar = l2.map Nat.digitChar →
    l1 = l2 := by
  intro l1
  induction l1 with
  | nil =>
    intro l2 _ _ h
    cases l2 with
    | nil => rfl
    | cons b t => simp at h
  | cons a t ih =>
    intro l2 h1 h2 h
    cases l2 with
    | nil => simp at h
    | cons b t2 =>
      simp only [List.map_cons, List.cons.injEq] at h
      have hab := digitChar_injOn (h1 a (List.mem_cons_self a t))
        (h2 b (List.mem_cons_self b t2)) h.1
      rw [hab, ih t2 (fun x hx => h1 x (List.mem_cons_of_mem _ hx))
        (fun x hx => h2 x (List.mem_cons_of_mem _ hx)) h.2]

theorem toDigitsCore_eq_digits :
    ∀ (fuel n : Nat) (acc : List Char), n < fuel → 0 < n →
    Nat.toDigitsCore 10 fuel n acc
      = ((Nat.digits 10 n).map Nat.digitChar).reverse ++ acc := by
  intro fuel
  induction fuel with
  | zero =>
    intro n acc h _
    omega
  | succ f ih =>
    intro n acc hlt hpos
    have hdef : Nat.digits 10 n = n % 10 :: Nat.digits 10 (n / 10) :=
      Nat.digits_def' (by norm_num) hpos
    by_cases hdiv : n / 10 = 0
    · have hstep : Nat.toDigitsCore 10 (f + 1) n acc
          = Nat.digitChar (n % 10) :: acc := by
        simp [Nat.toDigitsCore, hdiv]
      rw [hstep, hdef, hdiv]
      simp
    · have hstep : Nat.toDigitsCore 10 (f + 1) n acc
          = Nat.toDigitsCore 10 f (n / 10) (Nat.digitChar (n % 10) :: acc) := by
        simp [Nat.toDigitsCore, hdiv]
      have hposdiv : 0 < n / 10 := Nat.pos_of_ne_zero hdiv
      have hltdiv : n / 10 < f := by
        have hd : n / 10 < n := Nat.div_lt_self hpos (by norm_num)
        omega
      rw [hstep, ih (n / 10) _ hltdiv hposdiv, hdef]
      simp

theorem toDigits_eq_digits (n : Nat) (hn : 0 < n) :
    Nat.toDigits 10 n = ((Nat.digits 10 n).map Nat.digitChar).reverse := by
  unfold Nat.toDigits
  rw [toDigitsCore_eq_digits (n + 1) n [] (Nat.lt_succ_self n) hn]
  simp

theorem eq_zero_of_toDigits_eq_zero {n : Nat}
    (h : Nat.toDigits 10 0 = Nat.toDigits 10 n) : n = 0 := by
  by_contra hne
  have hn : 0 < n := Nat.pos_of_ne_zero hne
  rw [toDigits_eq_digits n hn] at h
  have h0 : Nat.toDigits 10 0 = ['0'] := rfl
  rw [h0] at h
  have hmap : (Nat.digits 10 n).map Nat.digitChar = ['0'] := by
    have h2 := congrArg List.reverse h
    simpa using h2.symm
  rcases hds : Nat.digits 10 n with _ | ⟨d, ds⟩
  · rw [hds] at hmap
    simp at hmap
  · rw [hds] at hmap
    simp only [List.map_cons, List.cons.injEq] at hmap
    obtain ⟨hd0, hds0⟩ := hmap
    have hds' : ds = [] := by simpa using hds0
    have hdlt : d < 10 := Nat.digits_lt_base (by norm_num)
      (by rw [hds]; exact List.mem_cons_self _ _)
    have hd : d = 0 := digitChar_injOn hdlt (by norm_num) hd0
    have h3 := Nat.ofDigits_digits 10 n
    rw [hds, hds', hd] at h3
    simp [Nat.ofDigits] at h3
    omega

theorem toString_nat_injective :
    Function.Injective (fun n : Nat => toString n) := by
  intro m n h
  have h2 : (Nat.toDigits 10 m).asString = (Nat.toDigits 10 n).asString := h
  have h' : Nat.toDigits 10 m = Nat.toDigits 10 n := asString_injective h2
  rcases Nat.eq_zero_or_pos m with hm | hm
  · rcases Nat.eq_zero_or_pos n with hn | hn
    · rw [hm, hn]
    · rw [hm] at h' ⊢
      exact (eq_zero_of_toDigits_eq_zero h').symm
  · rcases Nat.eq_zero_or_pos n with hn | hn
    · rw [hn] at h' ⊢
      exact eq_zero_of_toDigits_eq_zero h'.symm
    · rw [toDigits_eq_digits m hm, toDigits_eq_digits n hn] at h'
      have h1 : (Nat.digits 10 m).map Nat.digitChar
          = (Nat.digits 10 n).map Nat.digitChar := by
        have h2' := congrArg List.reverse h'
        simpa using h2'
      have h2'' : Nat.digits 10 m = Nat.digits 10 n :=
        map_digitChar_injOn _ _
          (fun x hx => Nat.digits_lt_base (by norm_num) hx)
          (fun x hx => Nat.digits_lt_base (by norm_num) hx) h1
      exact Nat.digits.injective 10 h2''

theorem seqIds_succ (start k : Nat) :
    seqIds start (k + 1) = toString start :: seqIds (start + 1) k := by
  unfold seqIds
  rw [List.range_succ_eq_map]
  simp only [List.map_cons, List.map_map, Nat.add_zero]
  congr 1
  apply List.map_congr_left
  intro i _
  simp only [Function.comp_apply]
  congr 1
  omega

theorem seqIds_nodup (start k : Nat) : (seqIds start k).Nodup := by
  unfold seqIds
  have hinj : Function.Injective fun i : Nat => toString (start + i) := by
    intro a b h
    have h2 : start + a = start + b := toString_nat_injective h
    omega
  exact List.Nodup.map hinj (List.nodup_range k)

theorem addNodes_ids (ps : List (Int × Int)) : ∀ s : AppState,
    (addNodes s ps).nodes.map Node.id
      = s.nodes.map Node.id ++ seqIds (s.nodes.length + 1) ps.length := by
  induction ps with
  | nil =>
    intro s
    simp [addNodes, seqIds]
  | cons p rest ih =>
    intro s
    have hfold : addNodes s (p :: rest) = addNodes (addNode s p.1 p.2) rest := rfl
    rw [hfold, ih]
    have h2 : (addNode s p.1 p.2).nodes.map Node.id
        = s.nodes.map Node.id ++ [toString (s.nodes.length + 1)] := by
      simp [addNode]
    have h3 : (addNode s p.1 p.2).nodes.length = s.nodes.length + 1 := by
      simp [addNode]
    rw [h2, h3, List.append_assoc, List.length_cons, seqIds_succ]
    simp

/-- C8: starting from an empty canvas, the n-th `addNode` call assigns the
identifier `toString n`: the identifiers are the decimal strings of the
strictly increasing integers 1..k in creation order, and they are pairwise
distinct. -/
theorem addNode_ids_sequential (ps : List (Int × Int)) (s : AppState)
    (h0 : s.nodes = []) :
    (addNodes s ps).nodes.map Node.id
      = (List.range ps.length).map (fun i => toString (i + 1)) ∧
    ((addNodes s ps).nodes.map Node.id).Nodup := by
  have h := addNodes_ids ps s
  rw [h0] at h
  simp only [List.map_nil, List.length_nil, List.nil_append, Nat.zero_add] at h
  constructor
  · rw [h]
    unfold seqIds
    apply List.map_congr_left
    intro i _
    congr 1
    omega
  · rw [h]
    exact seqIds_nodup _ _

theorem addNode_ids_sequential_witness :
    initialState.nodes = [] ∧
    (addNodes initialState [(0, 0), (1, 1), (2, 2)]).nodes.map Node.id
      = (List.range 3).map (fun i => toString (i + 1)) ∧
    ((addNodes initialState [(0, 0), (1, 1), (2, 2)]).nodes.map Node.id).Nodup :=
  ⟨rfl,
    (addNode_ids_sequential [(0, 0), (1, 1), (2, 2)] initialState rfl).1,
    (addNode_ids_sequential [(0, 0), (1, 1), (2, 2)] initialState rfl).2⟩

end BFSTraversal
